import Mathlib

/-!
Shallow embedding of the proof-of-work blockchain in `src/main.rs`
(structs `Block`, `ProofOfWork`, `Blockchain`), together with theorems
settling the specification claims about it.

Modelling conventions:
* Bytes are `Nat` values (the source's `u8` values are always `< 256`).
* The SHA-256 digest function is an external collaborator; it is modelled
  as an arbitrary function `H : List Nat → List Nat` passed as a parameter.
* `u64`/`i64` machine integers are modelled as `Nat`/`Int`; the fixed-width
  big-endian byte encodings (`to_be_bytes`) are made explicit via `% 2^64`.
* `SystemTime::now()` is an environment input: constructors take the
  timestamp as an explicit argument.
-/

/-- `const TARGET_BITS: u32 = 20;` from the source. -/
def TARGET_BITS : Nat := 20

/-- `const MAX_NONCE: u64 = u64::MAX;` from the source, as a natural number. -/
def MAX_NONCE : Nat := 2 ^ 64 - 1

/-- Big-endian fixed-width byte encoding: `beBytes w v` is the `w`-byte
big-endian encoding of `v mod 256^w`, most significant byte first. -/
def beBytes : Nat → Nat → List Nat
  | 0, _ => []
  | w + 1, v => beBytes w (v / 256) ++ [v % 256]

/-- Rust `i64::to_be_bytes` on the two's-complement representation of `x`:
the 8-byte big-endian encoding of `x mod 2^64`. -/
def i64be (x : Int) : List Nat := beBytes 8 (x % (2 ^ 64 : Int)).toNat

/-- Interpret a byte string as a big-endian unsigned integer
(`BigUint::from_bytes_be` in the source). -/
def bytesToNat (l : List Nat) : Nat := l.foldl (fun acc b => acc * 256 + b) 0

/-- UTF-8 encoding of a single code point. -/
def utf8Bytes (c : Nat) : List Nat :=
  if c < 0x80 then [c]
  else if c < 0x800 then [0xC0 + c / 64, 0x80 + c % 64]
  else if c < 0x10000 then [0xE0 + c / 4096, 0x80 + c / 64 % 64, 0x80 + c % 64]
  else [0xF0 + c / 262144, 0x80 + c / 4096 % 64, 0x80 + c / 64 % 64, 0x80 + c % 64]

/-- Rust `String::into_bytes`: the UTF-8 bytes of a string. -/
def strBytes (s : String) : List Nat := (s.data.map (fun c => utf8Bytes c.toNat)).flatten

/-- The `Block` struct of the source. -/
structure Block where
  timestamp : Int
  data : List Nat
  prev_block_hash : List Nat
  hash : List Nat
  nonce : Nat
deriving Repr, DecidableEq

/-- The target computed by `ProofOfWork::new`, with the difficulty as a
parameter: `1 << (256 - bits)` (the source instantiates `bits := TARGET_BITS`). -/
def targetCalc (bits : Nat) : Nat := 1 <<< (256 - bits)

/-- The target of `ProofOfWork::new` as the source computes it:
`1 << (256 - TARGET_BITS)`. -/
def powTarget : Nat := targetCalc TARGET_BITS

/-- `ProofOfWork::prepare_data`: the byte string hashed for a given nonce:
`prev_block_hash || data || timestamp.to_be_bytes() ||
 (TARGET_BITS as i64).to_be_bytes() || (nonce as i64).to_be_bytes()`. -/
def prepare_data (b : Block) (nonce : Nat) : List Nat :=
  b.prev_block_hash ++ b.data ++ i64be b.timestamp
    ++ i64be (TARGET_BITS : Int) ++ i64be (nonce : Int)

/-- The loop body of `ProofOfWork::run`. `fuel` is the number of remaining
iterations, i.e. `MAX_NONCE - nonce` (the loop guard is `nonce < MAX_NONCE`);
`hash` is the mutable `hash` variable carried across iterations. -/
def runAux (H : List Nat → List Nat) (b : Block) :
    List Nat → Nat → Nat → Nat × List Nat
  | hash, nonce, 0 => (nonce, hash)
  | _, nonce, fuel + 1 =>
    let h := H (prepare_data b nonce)
    if bytesToNat h < powTarget then (nonce, h)
    else runAux H b h (nonce + 1) fuel

/-- `ProofOfWork::run`: starting from `nonce = 0` and `hash = [0u8; 32]`,
search while `nonce < MAX_NONCE`; return the final `(nonce, hash)`. -/
def ProofOfWork.run (H : List Nat → List Nat) (b : Block) : Nat × List Nat :=
  runAux H b (List.replicate 32 0) 0 MAX_NONCE

/-- `ProofOfWork::validate`: rehash `prepare_data` at the stored nonce and
test strictly-below-target. -/
def ProofOfWork.validate (H : List Nat → List Nat) (b : Block) : Bool :=
  bytesToNat (H (prepare_data b b.nonce)) < powTarget

/-- The block value `Block::new` builds before mining: nonce `0`, empty hash.
The timestamp is the `SystemTime::now()` environment input. -/
def Block.base (data : String) (prev_block_hash : List Nat) (ts : Int) : Block :=
  { timestamp := ts, data := strBytes data, prev_block_hash := prev_block_hash,
    hash := [], nonce := 0 }

/-- `Block::new`: build the base block, run the proof of work, and store the
returned hash and nonce. -/
def Block.new (H : List Nat → List Nat) (data : String) (prev_block_hash : List Nat)
    (ts : Int) : Block :=
  let b := Block.base data prev_block_hash ts
  let r := ProofOfWork.run H b
  { b with hash := r.2, nonce := r.1 }

/-- The `Blockchain` struct of the source. -/
structure Blockchain where
  blocks : List Block

/-- `Blockchain::new` (including `generate_genesis`): a chain holding only
the genesis block `Block::new("Genesis Block", vec![])`. -/
def Blockchain.new (H : List Nat → List Nat) (ts : Int) : Blockchain :=
  { blocks := [Block.new H "Genesis Block" [] ts] }

/-- `Blockchain::get_prev_hash`: the hash of the last block, or `[]` when
the chain is empty. -/
def Blockchain.get_prev_hash (c : Blockchain) : List Nat :=
  match c.blocks.getLast? with
  | some b => b.hash
  | none => []

/-- `Blockchain::add_block`: append `Block::new(data, get_prev_hash())`. -/
def Blockchain.add_block (H : List Nat → List Nat) (c : Blockchain) (data : String)
    (ts : Int) : Blockchain :=
  { blocks := c.blocks ++ [Block.new H data (c.get_prev_hash) ts] }

/-- A ledger built purely by sequential appends: `Blockchain::new` followed
by one `add_block` per `(payload, timestamp)` pair. -/
def buildChain (H : List Nat → List Nat) (genTs : Int)
    (appends : List (String × Int)) : Blockchain :=
  appends.foldl (fun c p => Blockchain.add_block H c p.1 p.2) (Blockchain.new H genTs)

/-- Serialization as §4.2 of the spec words it: the order-fixed concatenation
`previous_digest || payload || timestamp || difficulty_bits || nonce`, the
integers encoded as fixed-width (8-byte) big-endian values. Written with an
independent positional byte formula, to be compared with `prepare_data`. -/
def serializeSpec (prev payload : List Nat) (ts : Int) (difficulty nonce : Nat) :
    List Nat :=
  let fixedWidthBE : Nat → List Nat := fun v =>
    ((List.range 8).reverse.map fun i => v / 256 ^ i % 256)
  prev ++ payload ++ fixedWidthBE (ts % (2 ^ 64 : Int)).toNat
    ++ fixedWidthBE (difficulty % 2 ^ 64) ++ fixedWidthBE (nonce % 2 ^ 64)

/-- Adjacent-pair linkage: every block's `prev_block_hash` equals the hash
of the block right before it. -/
def chainLinked (c : Blockchain) : Prop :=
  List.Chain' (fun A B => B.prev_block_hash = A.hash) c.blocks

/-- A digest function answering every query with 32 `0xFF` bytes: no digest
ever satisfies the target. Used to exercise the exhaustion path concretely. -/
def HFF : List Nat → List Nat := fun _ => List.replicate 32 255

/-- A digest function answering every query with 32 zero bytes: every digest
satisfies the target, so mining succeeds at nonce `0`. -/
def Hzero : List Nat → List Nat := fun _ => List.replicate 32 0

/-- A concrete candidate block: the base block `Block::new` builds for
payload `"a"`, empty previous hash and timestamp `0`. -/
def bC : Block := Block.base "a" [] 0

/-- A digest function satisfying the target only on the serialization of
`bC` at nonce `u64::MAX` — the one nonce the mining loop never attempts. -/
def Hsel : List Nat → List Nat := fun l =>
  if l = prepare_data bC MAX_NONCE then List.replicate 32 0 else List.replicate 32 255

section EncodingLemmas

theorem bytesToNat_snoc (l : List Nat) (b : Nat) :
    bytesToNat (l ++ [b]) = bytesToNat l * 256 + b := by
  simp [bytesToNat]

theorem bytesToNat_beBytes (w v : Nat) : bytesToNat (beBytes w v) = v % 256 ^ w := by
  induction w generalizing v with
  | zero => simp [beBytes, bytesToNat, Nat.mod_one]
  | succ w ih =>
    rw [beBytes, bytesToNat_snoc, ih]
    have h256 : (256 : Nat) ^ (w + 1) = 256 * 256 ^ w := by ring
    rw [h256, Nat.mod_mul]
    omega

theorem beBytes_length (w v : Nat) : (beBytes w v).length = w := by
  induction w generalizing v with
  | zero => simp [beBytes]
  | succ w ih => simp [beBytes, ih]

/-- `beBytes 8` agrees with the positional formula used by `serializeSpec`. -/
theorem beBytes_eight (v : Nat) :
    beBytes 8 v = ((List.range 8).reverse.map fun i => v / 256 ^ i % 256) := by
  show beBytes 8 v = [v / 256 ^ 7 % 256, v / 256 ^ 6 % 256, v / 256 ^ 5 % 256,
    v / 256 ^ 4 % 256, v / 256 ^ 3 % 256, v / 256 ^ 2 % 256, v / 256 ^ 1 % 256,
    v / 256 ^ 0 % 256]
  simp [beBytes, Nat.div_div_eq_div_mul]

end EncodingLemmas

section RunLemmas

variable (H : List Nat → List Nat) (b : Block)

/-- One loop iteration whose digest satisfies the target stops the search. -/
theorem runAux_found_here (h0 : List Nat) (nonce fuel : Nat)
    (h : bytesToNat (H (prepare_data b nonce)) < powTarget) :
    runAux H b h0 nonce (fuel + 1) = (nonce, H (prepare_data b nonce)) := by
  simp [runAux, h]

/-- One loop iteration whose digest misses the target increments the nonce. -/
theorem runAux_step (h0 : List Nat) (nonce fuel : Nat)
    (h : ¬ bytesToNat (H (prepare_data b nonce)) < powTarget) :
    runAux H b h0 nonce (fuel + 1) =
      runAux H b (H (prepare_data b nonce)) (nonce + 1) fuel := by
  simp [runAux, h]

/-- The loop stops at the first satisfying nonce within its fuel. -/
theorem runAux_found (fuel : Nat) : ∀ (h0 : List Nat) (nonce k : Nat),
    k < fuel →
    bytesToNat (H (prepare_data b (nonce + k))) < powTarget →
    (∀ j < k, powTarget ≤ bytesToNat (H (prepare_data b (nonce + j)))) →
    runAux H b h0 nonce fuel = (nonce + k, H (prepare_data b (nonce + k))) := by
  induction fuel with
  | zero => intro h0 nonce k hk _ _; exact absurd hk (Nat.not_lt_zero k)
  | succ fuel ih =>
    intro h0 nonce k hk hfound hmin
    match k with
    | 0 => simpa using runAux_found_here H b h0 nonce fuel (by simpa using hfound)
    | k + 1 =>
      have hfail : powTarget ≤ bytesToNat (H (prepare_data b nonce)) := by
        simpa using hmin 0 (Nat.succ_pos k)
      rw [runAux_step H b h0 nonce fuel (Nat.not_lt.mpr hfail)]
      have harg : nonce + 1 + k = nonce + (k + 1) := by omega
      have hres := ih (H (prepare_data b nonce)) (nonce + 1) k
        (Nat.lt_of_succ_lt_succ hk) (by rw [harg]; exact hfound)
        (fun j hj => by
          have := hmin (j + 1) (Nat.succ_lt_succ hj)
          have harg2 : nonce + 1 + j = nonce + (j + 1) := by omega
          rw [harg2]; exact this)
      rw [hres, harg]

/-- If every digest within the fuel misses the target, the loop runs the
fuel out and returns the incremented-past-the-end nonce together with the
digest of the **last attempted** nonce. -/
theorem runAux_exhaust (fuel : Nat) : ∀ (h0 : List Nat) (nonce : Nat),
    (∀ k < fuel + 1, powTarget ≤ bytesToNat (H (prepare_data b (nonce + k)))) →
    runAux H b h0 nonce (fuel + 1) =
      (nonce + fuel + 1, H (prepare_data b (nonce + fuel))) := by
  induction fuel with
  | zero =>
    intro h0 nonce hall
    have hfail : powTarget ≤ bytesToNat (H (prepare_data b nonce)) := by
      simpa using hall 0 (by omega)
    rw [runAux_step H b h0 nonce 0 (Nat.not_lt.mpr hfail)]
    simp [runAux]
  | succ fuel ih =>
    intro h0 nonce hall
    have hfail : powTarget ≤ bytesToNat (H (prepare_data b nonce)) := by
      simpa using hall 0 (by omega)
    rw [runAux_step H b h0 nonce (fuel + 1) (Nat.not_lt.mpr hfail)]
    have hres := ih (H (prepare_data b nonce)) (nonce + 1)
      (fun k hk => by
        have := hall (k + 1) (by omega)
        have harg : nonce + 1 + k = nonce + (k + 1) := by omega
        rw [harg]; exact this)
    rw [hres]
    have h1 : nonce + 1 + fuel + 1 = nonce + (fuel + 1) + 1 := by omega
    have h2 : nonce + 1 + fuel = nonce + (fuel + 1) := by omega
    rw [h1, h2]

/-- Whenever the loop's returned nonce is strictly below `start + fuel`, the
search broke out early: the returned digest satisfies the target and is the
digest of the returned nonce. -/
theorem runAux_lt (fuel : Nat) : ∀ (h0 : List Nat) (nonce : Nat),
    (runAux H b h0 nonce fuel).1 < nonce + fuel →
    bytesToNat (runAux H b h0 nonce fuel).2 < powTarget ∧
      (runAux H b h0 nonce fuel).2 =
        H (prepare_data b (runAux H b h0 nonce fuel).1) := by
  induction fuel with
  | zero =>
    intro h0 nonce h
    simp [runAux] at h
  | succ fuel ih =>
    intro h0 nonce h
    by_cases hc : bytesToNat (H (prepare_data b nonce)) < powTarget
    · rw [runAux_found_here H b h0 nonce fuel hc]
      exact ⟨hc, rfl⟩
    · rw [runAux_step H b h0 nonce fuel hc] at h ⊢
      exact ih (H (prepare_data b nonce)) (nonce + 1) (by omega)

end RunLemmas

section InjectivityLemmas

theorem int_toNat_mod (n : Nat) :
    ((n : Int) % (2 ^ 64 : Int)).toNat = n % 2 ^ 64 := by
  rw [show ((2 : Int) ^ 64) = ((2 ^ 64 : Nat) : Int) by push_cast,
    ← Int.natCast_mod]
  exact Int.toNat_natCast _

theorem bytesToNat_i64be_nat (n : Nat) :
    bytesToNat (i64be (n : Int)) = n % 2 ^ 64 := by
  rw [i64be, int_toNat_mod, bytesToNat_beBytes]
  have h2 : (256 : Nat) ^ 8 = 2 ^ 64 := by norm_num
  rw [h2, Nat.mod_mod_of_dvd _ dvd_rfl]

/-- The serialization determines the nonce (modulo `2^64`): two nonces below
`2^64` that serialize identically are equal. -/
theorem prepare_data_inj (b : Block) (m n : Nat) (hm : m < 2 ^ 64) (hn : n < 2 ^ 64)
    (h : prepare_data b m = prepare_data b n) : m = n := by
  unfold prepare_data at h
  have h1 := List.append_cancel_left h
  have hv : bytesToNat (i64be (m : Int)) = bytesToNat (i64be (n : Int)) := by rw [h1]
  rw [bytesToNat_i64be_nat, bytesToNat_i64be_nat,
    Nat.mod_eq_of_lt hm, Nat.mod_eq_of_lt hn] at hv
  exact hv

end InjectivityLemmas

section RunCorollaries

/-- If no nonce in `0 .. MAX_NONCE - 1` satisfies the target, `run` returns
`MAX_NONCE` paired with the digest of the last attempted nonce `MAX_NONCE - 1`. -/
theorem run_exhaust (H : List Nat → List Nat) (b : Block)
    (hall : ∀ n, n < MAX_NONCE → powTarget ≤ bytesToNat (H (prepare_data b n))) :
    ProofOfWork.run H b = (MAX_NONCE, H (prepare_data b (MAX_NONCE - 1))) := by
  have hpos : 1 ≤ MAX_NONCE := by decide
  have key := runAux_exhaust H b (MAX_NONCE - 1) (List.replicate 32 0) 0
    (fun k hk => by rw [Nat.zero_add]; exact hall k (by omega))
  rw [Nat.zero_add] at key
  rw [show MAX_NONCE - 1 + 1 = MAX_NONCE from by decide] at key
  exact key

/-- A returned nonce strictly below `MAX_NONCE` means the loop broke out:
the returned digest satisfies the target and is the digest of the returned
nonce. -/
theorem run_lt (H : List Nat → List Nat) (b : Block)
    (h : (ProofOfWork.run H b).1 < MAX_NONCE) :
    bytesToNat (ProofOfWork.run H b).2 < powTarget ∧
      (ProofOfWork.run H b).2 = H (prepare_data b (ProofOfWork.run H b).1) :=
  runAux_lt H b MAX_NONCE (List.replicate 32 0) 0 (by simpa using h)

end RunCorollaries

section GadgetLemmas

theorem HFF_miss (l : List Nat) : powTarget ≤ bytesToNat (HFF l) :=
  (by decide : powTarget ≤ bytesToNat (List.replicate 32 255))

theorem Hzero_hit (l : List Nat) : bytesToNat (Hzero l) < powTarget :=
  (by decide : bytesToNat (List.replicate 32 0) < powTarget)

/-- Below `u64::MAX`, `Hsel` answers `0xFF…FF` on every serialization of `bC`. -/
theorem Hsel_ne (n : Nat) (hn : n < MAX_NONCE) :
    Hsel (prepare_data bC n) = List.replicate 32 255 := by
  have hne : ¬ prepare_data bC n = prepare_data bC MAX_NONCE := by
    intro heq
    have h64 : MAX_NONCE < 2 ^ 64 := by decide
    have heqn := prepare_data_inj bC n MAX_NONCE (by omega) h64 heq
    omega
  simp [Hsel, hne]

theorem Hsel_hit : Hsel (prepare_data bC MAX_NONCE) = List.replicate 32 0 := by
  simp [Hsel]

/-- With `Hsel`, mining on `bC` exhausts and returns the all-`0xFF` digest. -/
theorem run_Hsel_bC :
    ProofOfWork.run Hsel bC = (MAX_NONCE, List.replicate 32 255) := by
  have h := run_exhaust Hsel bC
    (fun n hn => by rw [Hsel_ne n hn]; exact HFF_miss [])
  rw [h, Hsel_ne (MAX_NONCE - 1) (by decide)]

end GadgetLemmas

section ChainLemmas

theorem Block.new_prev (H : List Nat → List Nat) (data : String)
    (prev : List Nat) (ts : Int) :
    (Block.new H data prev ts).prev_block_hash = prev := rfl

theorem Block.new_nonce (H : List Nat → List Nat) (data : String)
    (prev : List Nat) (ts : Int) :
    (Block.new H data prev ts).nonce
      = (ProofOfWork.run H (Block.base data prev ts)).1 := rfl

theorem Block.new_hash (H : List Nat → List Nat) (data : String)
    (prev : List Nat) (ts : Int) :
    (Block.new H data prev ts).hash
      = (ProofOfWork.run H (Block.base data prev ts)).2 := rfl

theorem Block.new_data (H : List Nat → List Nat) (data : String)
    (prev : List Nat) (ts : Int) :
    (Block.new H data prev ts).data = strBytes data := rfl

theorem prepare_data_new (H : List Nat → List Nat) (data : String)
    (prev : List Nat) (ts : Int) (n : Nat) :
    prepare_data (Block.new H data prev ts) n
      = prepare_data (Block.base data prev ts) n := rfl

theorem bC_eq : Block.base "a" [] 0 = bC := rfl

theorem add_block_linked (H : List Nat → List Nat) (c : Blockchain)
    (data : String) (ts : Int) (hc : chainLinked c) :
    chainLinked (Blockchain.add_block H c data ts) := by
  unfold chainLinked Blockchain.add_block
  rw [List.chain'_append]
  refine ⟨hc, List.chain'_singleton _, ?_⟩
  intro x hx y hy
  simp only [List.head?_cons, Option.mem_def, Option.some.injEq] at hy
  subst hy
  show (Block.new H data c.get_prev_hash ts).prev_block_hash = x.hash
  rw [Block.new_prev]
  unfold Blockchain.get_prev_hash
  rw [Option.mem_def] at hx
  rw [hx]

theorem buildChain_aux (H : List Nat → List Nat) (appends : List (String × Int)) :
    ∀ c : Blockchain, chainLinked c →
      chainLinked (appends.foldl (fun c p => Blockchain.add_block H c p.1 p.2) c) := by
  induction appends with
  | nil => intro c hc; exact hc
  | cons p ps ih =>
    intro c hc
    simp only [List.foldl_cons]
    exact ih _ (add_block_linked H c p.1 p.2 hc)

end ChainLemmas

/-!
## Claim theorems
-/

/-- **C1, counterexample.** With a digest function whose outputs never fall
below the target, mining exhausts the nonce space, `Block::new` still stores
the returned nonce/digest pair, and `validate` on the produced record
returns `false` — refuting "for every record produced by Mine, Validate
returns true". -/
theorem C1_counterexample :
    ProofOfWork.validate HFF (Block.new HFF "a" [] 0) = false := by decide

/-- **C1 (amended).** For every record produced by Mine whose nonce search
succeeded — equivalently, whose stored nonce is strictly below `u64::MAX` —
`validate` with the same difficulty returns `true`. -/
theorem C1_validate_mined (H : List Nat → List Nat) (data : String)
    (prev : List Nat) (ts : Int)
    (hsucc : (Block.new H data prev ts).nonce < MAX_NONCE) :
    ProofOfWork.validate H (Block.new H data prev ts) = true := by
  have hlt := run_lt H (Block.base data prev ts) hsucc
  simp only [ProofOfWork.validate, decide_eq_true_eq]
  show bytesToNat
      (H (prepare_data (Block.base data prev ts)
        (ProofOfWork.run H (Block.base data prev ts)).1)) < powTarget
  rw [← hlt.2]
  exact hlt.1

/-- **C1, witness.** With the all-zero digest function mining succeeds at
nonce `0` and validation holds on the produced record. -/
theorem C1_witness :
    (Block.new Hzero "a" [] 0).nonce < MAX_NONCE ∧
      ProofOfWork.validate Hzero (Block.new Hzero "a" [] 0) = true :=
  ⟨by decide, C1_validate_mined Hzero "a" [] 0 (by decide)⟩

/-- **C2, counterexample.** On exhaustion `run` does not surface a failure
distinct from success: with a digest function whose outputs never fall below
the target it returns a (nonce, digest) pair whose digest, read as a
big-endian integer, is **not** strictly below the target. -/
theorem C2_counterexample :
    ¬ bytesToNat (ProofOfWork.run HFF bC).2 < powTarget := by
  have h := run_exhaust HFF bC (fun n _ => HFF_miss _)
  rw [h]
  show ¬ bytesToNat (HFF (prepare_data bC (MAX_NONCE - 1))) < powTarget
  exact Nat.not_lt.mpr (HFF_miss _)

/-- **C2 (amended).** If every nonce in `0 .. u64::MAX - 1` fails the
target, `run` returns `u64::MAX` paired with the digest of the last
attempted nonce `u64::MAX - 1` — a digest not below the target; exhaustion
is detectable only through the returned nonce equalling `u64::MAX`, not as
a typed failure. -/
theorem C2_exhaustion_result (H : List Nat → List Nat) (b : Block)
    (hall : ∀ n, n < MAX_NONCE → powTarget ≤ bytesToNat (H (prepare_data b n))) :
    ProofOfWork.run H b = (MAX_NONCE, H (prepare_data b (MAX_NONCE - 1))) ∧
      ¬ bytesToNat (ProofOfWork.run H b).2 < powTarget := by
  have h := run_exhaust H b hall
  refine ⟨h, ?_⟩
  rw [h]
  exact Nat.not_lt.mpr (hall (MAX_NONCE - 1) (by decide))

/-- **C2, witness.** The amended statement instantiated with the all-`0xFF`
digest function on the concrete block `bC`. -/
theorem C2_witness :
    (∀ n, n < MAX_NONCE → powTarget ≤ bytesToNat (HFF (prepare_data bC n))) ∧
      ProofOfWork.run HFF bC = (MAX_NONCE, HFF (prepare_data bC (MAX_NONCE - 1))) :=
  ⟨fun _ _ => HFF_miss _, (C2_exhaustion_result HFF bC (fun _ _ => HFF_miss _)).1⟩

/-- **C3, counterexample.** The loop guard is `nonce < u64::MAX`, so the
nonce `u64::MAX` itself is never attempted: with a digest function whose
only satisfying serialization of `bC` is the one at nonce `u64::MAX`, a
satisfying u64 nonce exists, yet `run` returns a digest that does not
satisfy the target — refuting "tries every u64 value before declaring
exhaustion". -/
theorem C3_counterexample :
    bytesToNat (Hsel (prepare_data bC MAX_NONCE)) < powTarget ∧
      ¬ bytesToNat (ProofOfWork.run Hsel bC).2 < powTarget := by
  constructor
  · rw [Hsel_hit]; decide
  · rw [run_Hsel_bC]
    exact Nat.not_lt.mpr (HFF_miss [])

/-- **C3 (amended).** The search starts at nonce `0`, increments by `1`
after each failed attempt, and stops at the first nonce whose digest reads
strictly below the target; before declaring exhaustion it attempts only the
nonces `0 .. u64::MAX - 1` (so any first satisfying nonce strictly below
`u64::MAX` is returned together with its digest, while `u64::MAX` itself is
never attempted). -/
theorem C3_first_satisfying (H : List Nat → List Nat) (b : Block) (n : Nat)
    (hn : n < MAX_NONCE)
    (hfound : bytesToNat (H (prepare_data b n)) < powTarget)
    (hmin : ∀ m, m < n → powTarget ≤ bytesToNat (H (prepare_data b m))) :
    ProofOfWork.run H b = (n, H (prepare_data b n)) := by
  have key := runAux_found H b MAX_NONCE (List.replicate 32 0) 0 n hn
    (by rw [Nat.zero_add]; exact hfound)
    (fun j hj => by rw [Nat.zero_add]; exact hmin j hj)
  rw [Nat.zero_add] at key
  exact key

/-- **C3, witness.** With the all-zero digest function the first satisfying
nonce is `0` and `run` returns it with its digest. -/
theorem C3_witness :
    0 < MAX_NONCE ∧ bytesToNat (Hzero (prepare_data bC 0)) < powTarget ∧
      ProofOfWork.run Hzero bC = (0, Hzero (prepare_data bC 0)) :=
  ⟨by decide, Hzero_hit _,
    C3_first_satisfying Hzero bC 0 (by decide) (Hzero_hit _)
      (fun m hm => absurd hm (Nat.not_lt_zero m))⟩

/-- **C4.** The serialization fed to the digest function is exactly the
concatenation `previous_digest || payload || timestamp (8-byte big-endian)
|| difficulty_bits (8-byte big-endian) || nonce (8-byte big-endian)`
(`serializeSpec`, written from the spec's words), and validation hashes the
very same encoding at the stored nonce. -/
theorem C4_serialization (b : Block) (n : Nat) (H : List Nat → List Nat) :
    prepare_data b n
        = serializeSpec b.prev_block_hash b.data b.timestamp TARGET_BITS n ∧
      ProofOfWork.validate H b
        = decide (bytesToNat (H (serializeSpec b.prev_block_hash b.data
            b.timestamp TARGET_BITS b.nonce)) < powTarget) := by
  have hser : ∀ m : Nat, prepare_data b m
      = serializeSpec b.prev_block_hash b.data b.timestamp TARGET_BITS m := by
    intro m
    simp only [prepare_data, serializeSpec, i64be, beBytes_eight,
      int_toNat_mod]
  refine ⟨hser n, ?_⟩
  simp only [ProofOfWork.validate, ← hser b.nonce]

/-- **C5.** The target is `1 <<< (256 - difficulty_bits)` (`DIGEST_BITS =
256` for the 32-byte digest), i.e. `2 ^ (256 - difficulty_bits)`; with the
source's fixed `TARGET_BITS = 20` the target equals `2 ^ 236`. -/
theorem C5_target_formula :
    (∀ bits : Nat, targetCalc bits = 2 ^ (256 - bits)) ∧
      TARGET_BITS = 20 ∧ powTarget = 2 ^ 236 := by
  refine ⟨fun bits => ?_, rfl, by decide⟩
  rw [targetCalc, Nat.shiftLeft_eq, Nat.one_mul]

/-- **C6, counterexample.** On exhaustion `Block::new` stores nonce
`u64::MAX` but the digest of nonce `u64::MAX - 1`; re-serializing with the
stored nonce and re-hashing then fails to reproduce the stored digest. -/
theorem C6_counterexample :
    Hsel (prepare_data (Block.new Hsel "a" [] 0) (Block.new Hsel "a" [] 0).nonce)
      ≠ (Block.new Hsel "a" [] 0).hash := by
  have hnonce : (Block.new Hsel "a" [] 0).nonce = MAX_NONCE := by
    rw [Block.new_nonce, bC_eq, run_Hsel_bC]
  have hhash : (Block.new Hsel "a" [] 0).hash = List.replicate 32 255 := by
    rw [Block.new_hash, bC_eq, run_Hsel_bC]
  have hpre : prepare_data (Block.new Hsel "a" [] 0) (Block.new Hsel "a" [] 0).nonce
      = prepare_data bC MAX_NONCE := by
    rw [hnonce, prepare_data_new, bC_eq]
  rw [hpre, hhash, Hsel_hit]
  decide

/-- **C6 (amended).** For every finalized record whose nonce search
succeeded (stored nonce strictly below `u64::MAX`), re-serializing the
record with its stored nonce and re-hashing reproduces the stored digest
exactly. -/
theorem C6_rehash_deterministic (H : List Nat → List Nat) (data : String)
    (prev : List Nat) (ts : Int)
    (hsucc : (Block.new H data prev ts).nonce < MAX_NONCE) :
    H (prepare_data (Block.new H data prev ts) (Block.new H data prev ts).nonce)
      = (Block.new H data prev ts).hash := by
  have hlt := run_lt H (Block.base data prev ts) hsucc
  show H (prepare_data (Block.base data prev ts)
      (ProofOfWork.run H (Block.base data prev ts)).1)
    = (ProofOfWork.run H (Block.base data prev ts)).2
  exact hlt.2.symm

/-- **C6, witness.** With the all-zero digest function mining succeeds at
nonce `0` and re-hashing reproduces the stored digest. -/
theorem C6_witness :
    (Block.new Hzero "a" [] 0).nonce < MAX_NONCE ∧
      Hzero (prepare_data (Block.new Hzero "a" [] 0) (Block.new Hzero "a" [] 0).nonce)
        = (Block.new Hzero "a" [] 0).hash :=
  ⟨by decide, C6_rehash_deterministic Hzero "a" [] 0 (by decide)⟩

/-- **C7.** In any ledger built purely by sequential appends
(`Blockchain::new` followed by any number of `add_block` calls, with
arbitrary payloads and timestamps), every adjacent pair of records `(A, B)`
satisfies `B.prev_block_hash = A.hash`. -/
theorem C7_chain_linkage (H : List Nat → List Nat) (genTs : Int)
    (appends : List (String × Int)) :
    List.Chain' (fun A B => B.prev_block_hash = A.hash)
      (buildChain H genTs appends).blocks :=
  buildChain_aux H appends (Blockchain.new H genTs) (List.chain'_singleton _)

/-- **C8.** Every freshly initialized ledger is non-empty, and its first
record has an empty `prev_block_hash` and the fixed genesis payload — the
UTF-8 bytes of `"Genesis Block"`. -/
theorem C8_genesis_shape (H : List Nat → List Nat) (ts : Int) :
    ∃ g rest, (Blockchain.new H ts).blocks = g :: rest ∧
      g.prev_block_hash = [] ∧
      g.data = strBytes "Genesis Block" ∧
      g.data = [71, 101, 110, 101, 115, 105, 115, 32, 66, 108, 111, 99, 107] := by
  refine ⟨Block.new H "Genesis Block" [] ts, [], rfl, rfl, rfl, ?_⟩
  rw [Block.new_data]
  decide

/-- **C9.** The target function is strictly antitone in the difficulty:
for `d1 < d2 ≤ 256`, `targetCalc d2 < targetCalc d1`. -/
theorem C9_target_antitone (d1 d2 : Nat) (h12 : d1 < d2) (h2 : d2 ≤ 256) :
    targetCalc d2 < targetCalc d1 := by
  rw [targetCalc, targetCalc, Nat.shiftLeft_eq, Nat.shiftLeft_eq,
    Nat.one_mul, Nat.one_mul]
  exact Nat.pow_lt_pow_right (by norm_num) (by omega)

/-- **C9, witness.** Difficulty 19 versus 20. -/
theorem C9_witness : 19 < 20 ∧ 20 ≤ 256 ∧ targetCalc 20 < targetCalc 19 :=
  ⟨by decide, by decide, C9_target_antitone 19 20 (by decide) (by decide)⟩

/-- **C10.** Whenever `run` returns a nonce strictly smaller than
`u64::MAX`, the digest returned alongside it, read as a big-endian unsigned
integer, is strictly below the target. -/
theorem C10_nonce_success_indicator (H : List Nat → List Nat) (b : Block)
    (h : (ProofOfWork.run H b).1 < MAX_NONCE) :
    bytesToNat (ProofOfWork.run H b).2 < powTarget :=
  (run_lt H b h).1

/-- **C10, witness.** With the all-zero digest function on `bC` the
returned nonce is `0 < u64::MAX` and the digest reads `0 <` target. -/
theorem C10_witness :
    (ProofOfWork.run Hzero bC).1 < MAX_NONCE ∧
      bytesToNat (ProofOfWork.run Hzero bC).2 < powTarget :=
  ⟨by decide, C10_nonce_success_indicator Hzero bC (by decide)⟩
